import Mathlib

/-!
Verification development for the xgrammar grammar-constrained decoding matcher.

The visible source file `src/python/xgrammar/matcher.py` is a thin wrapper:
it validates arguments, normalizes the stop-token configuration and delegates
to a native core object (`_core.GrammarMatcher`) that is not part of the
visible sources.  The wrapper-level functions (`get_bitmask_shape`,
`allocate_token_bitmask`, the device/dtype guards of
`fill_next_token_bitmask`, the `override_stop_tokens` normalization in
`GrammarMatcher.__init__`) are translated directly from that Python file.
The behaviour of the native core (accepting tokens, producing bitmasks,
rollback, termination, jump-forward) is modelled from the specification
(sections 3, 4.1 to 4.6, 6 and 8 of the design document).
-/

set_option autoImplicit false

namespace XGrammar

/-- Modelled from the spec: the Matching Engine of the native core
(`_core.GrammarMatcher`), absent from src/.  Section 4.1 gives the contract
`try_advance(state, input_unit) -> Accepted(new_state) | Rejected`: a
deterministic single-unit step of the pushdown automaton, abstracted here as
a partial transition function on automaton configurations (encoded as
naturals), together with the predicate "the root derivation is fully
satisfied" (the accepting configurations, section 3 TerminationState). -/
structure MatchingEngine where
  tryAdvance : Nat → Nat → Option Nat
  isAccepting : Nat → Bool

/-- Modelled from the spec: the immutable compiled grammar consumed read-only
by the matcher (section 3): the matching engine derived from the rules, the
start configuration, the vocabulary-to-byte-sequence mapping and the
grammar-derived stop-token ids. -/
structure CompiledGrammar where
  engine : MatchingEngine
  startState : Nat
  vocab : List (List Nat)
  grammarStopTokens : List Nat

/-- Modelled from the spec: the construction-time configuration of a matcher
(section 6): engine and vocabulary from the compiled grammar, the effective
stop-token ids, `terminate_without_stop_token` and `max_rollback_tokens`. -/
structure MatcherConfig where
  engine : MatchingEngine
  startState : Nat
  vocab : List (List Nat)
  stopTokens : List Nat
  terminateWithoutStopToken : Bool
  maxRollbackTokens : Nat

/-- Modelled from the spec: the mutable state of the native matcher
(sections 3 and 4.5): the current automaton configuration, the absorbing
termination flag, the bounded rollback history (automaton configurations as
they were before each accepted token, newest first, never longer than
`max_rollback_tokens`), and the count of tokens accepted since the last
reset (decremented by rollback). -/
@[ext]
structure Matcher where
  cfg : MatcherConfig
  auto : Nat
  terminated : Bool
  history : List Nat
  numAccepted : Nat

/-- Modelled from the spec: matcher construction (section 3 lifecycles):
the automaton starts in the grammar start configuration, Active, with an
empty history. -/
def Matcher.init (cfg : MatcherConfig) : Matcher :=
  { cfg := cfg, auto := cfg.startState, terminated := false,
    history := [], numAccepted := 0 }

/-- Modelled from the spec: running the Matching Engine over a token's
constituent units in sequence (section 4.5): the whole sequence advances or
the whole attempt rejects, leaving no partial progress. -/
def chainAdvance (e : MatchingEngine) : Nat → List Nat → Option Nat
  | s, [] => some s
  | s, u :: rest =>
    match e.tryAdvance s u with
    | some s' => chainAdvance e s' rest
    | none => none

/-- Modelled from the spec: the ring-buffer history push (section 4.3):
on every successful accept the pre-token automaton configuration is
recorded and, when the capacity `max_rollback_tokens` is full, the oldest
entry is evicted. -/
def pushHistory (m : Matcher) : List Nat :=
  (m.auto :: m.history).take m.cfg.maxRollbackTokens

/-- Modelled from the spec: `accept_token` of the native core
(sections 4.5 and 7).  A call on a terminated matcher is a usage error.
A designated stop token is accepted exactly when the automaton is in an
accepting configuration (section 4.2: stop tokens are not literal grammar
content) and moves the matcher to Terminated.  Any other token is accepted
exactly when its full unit sequence advances the engine; on success the
state is updated (terminating directly when `terminate_without_stop_token`
is set and the root is now fully derived) and the history records the
pre-token configuration; on failure the state is returned unchanged and
the call reports `false` as a normal value. -/
def accept_token (m : Matcher) (t : Nat) : Except String (Bool × Matcher) :=
  if m.terminated then .error "matcher is terminated"
  else
    match m.cfg.vocab[t]? with
    | none => .error "invalid token id"
    | some units =>
      if m.cfg.stopTokens.contains t then
        if m.cfg.engine.isAccepting m.auto then
          .ok (true, { m with terminated := true, history := pushHistory m,
                              numAccepted := m.numAccepted + 1 })
        else .ok (false, m)
      else
        match chainAdvance m.cfg.engine m.auto units with
        | some s' =>
          .ok (true, { m with auto := s',
                              terminated := m.cfg.terminateWithoutStopToken
                                && m.cfg.engine.isAccepting s',
                              history := pushHistory m,
                              numAccepted := m.numAccepted + 1 })
        | none => .ok (false, m)

/-- The automaton-level effect of a successful accept, read off from
`accept_token`: the new automaton configuration and termination flag a
successful accept of token `t` produces, as a function of the
configuration and the current automaton state alone (it is `none` exactly
when the accept would reject or error). -/
def stepResult (cfg : MatcherConfig) (s t : Nat) : Option (Nat × Bool) :=
  match cfg.vocab[t]? with
  | none => none
  | some units =>
    if cfg.stopTokens.contains t then
      if cfg.engine.isAccepting s then some (s, true) else none
    else
      match chainAdvance cfg.engine s units with
      | some s' => some (s', cfg.terminateWithoutStopToken && cfg.engine.isAccepting s')
      | none => none

/-- Modelled from the spec: the admissibility bit of one token at the
current configuration (section 4.2): a stop token is admissible exactly
when the automaton is in an accepting configuration; any other token is
admissible exactly when its full unit sequence advances the engine from
the current configuration, without mutating it. -/
def tokenBit (m : Matcher) (t : Nat) : Bool :=
  match m.cfg.vocab[t]? with
  | none => false
  | some units =>
    if m.cfg.stopTokens.contains t then m.cfg.engine.isAccepting m.auto
    else (chainAdvance m.cfg.engine m.auto units).isSome

/-- Modelled from the spec: the unpacked per-token admissibility vector for
the whole vocabulary (section 3 Bitmask), one bit per token id. -/
def nextTokenMask (m : Matcher) : List Bool :=
  (List.range m.cfg.vocab.length).map (tokenBit m)

/-- Packs a list of bits into one little-endian machine word: bit `k` of
the result is element `k` of the list (section 6 bit layout convention). -/
def bitsToWord (bits : List Bool) : Nat :=
  bits.foldr (fun b acc => 2 * acc + (if b then 1 else 0)) 0

/-- Packs a bit vector into 32-bit words: bit `j` lives at word `j / 32`,
bit position `j % 32` (section 6 bit layout convention). -/
def maskWords (mask : List Bool) : List Nat :=
  (List.range ((mask.length + 31) / 32)).map
    (fun j => bitsToWord ((mask.drop (32 * j)).take 32))

/-- The dtype of the bitmask: int32 (element types of the tensors the
wrapper distinguishes). -/
inductive DType where
  | int32
  | int64
  | float32
  deriving DecidableEq, Repr

/-- A shallow model of the `torch.Tensor` values the wrapper manipulates:
the device type string, the element dtype, the row-major contents and the
pinned-memory flag. -/
structure Tensor where
  deviceType : String
  dtype : DType
  rows : List (List Nat)
  pinned : Bool
  deriving Repr

/-- The dtype of the bitmask: int32 (matcher.py line 14). -/
def bitmask_dtype : DType := DType.int32

/-- Return the shape of the bitmask: (batch_size, ceil(vocab_size / 32))
(matcher.py lines 20-22; `math.ceil(vocab_size / 32)` is rendered as exact
ceiling division on naturals). -/
def get_bitmask_shape (batch_size vocab_size : Nat) : Nat × Nat :=
  (batch_size, (vocab_size + 31) / 32)

/-- Allocate the bitmask for the next token prediction: an int32 tensor on
CPU with shape (batch_size, ceil(vocab_size / 32)), pinned when CUDA is
available (matcher.py lines 25-49; `torch.empty` leaves the contents
unspecified, rendered here as zeros; the process-wide
`_is_cuda_available` flag is passed explicitly). -/
def allocate_token_bitmask (cudaAvailable : Bool) (batch_size vocab_size : Nat) : Tensor :=
  { deviceType := "cpu"
    dtype := bitmask_dtype
    rows := List.replicate batch_size
      (List.replicate (get_bitmask_shape batch_size vocab_size).2 0)
    pinned := cudaAvailable }

/-- Modelled from the spec: the native core bitmask fill (sections 4.2, 4.5
and 6), absent from src/.  It is a pure query of the current configuration:
it fails on a terminated matcher, validates the buffer row against the
shape it is handed, and otherwise overwrites the first ceil(vocab/32)
words of row `index` with the packed admissibility mask, leaving every
other row untouched. -/
def coreFillNextTokenBitmask (m : Matcher) (rows : List (List Nat)) (index : Nat) :
    Except String (List (List Nat)) :=
  if m.terminated then .error "matcher is terminated"
  else
    match rows[index]? with
    | none => .error "bitmask row index out of range"
    | some row =>
      if row.length < (maskWords (nextTokenMask m)).length then
        .error "bitmask buffer too small"
      else
        .ok (rows.set index (maskWords (nextTokenMask m)
          ++ row.drop (maskWords (nextTokenMask m)).length))

/-- Fill the bitmask for the next token prediction (matcher.py lines
192-211): the wrapper raises when the buffer is not on CPU or its dtype is
not int32, then delegates to the native core, which writes row `index` in
place and does not change the matcher state. -/
def fill_next_token_bitmask (m : Matcher) (bitmask : Tensor) (index : Nat) :
    Except String (Tensor × Matcher) :=
  if bitmask.deviceType ≠ "cpu" then .error "bitmask should be on CPU."
  else if bitmask.dtype ≠ bitmask_dtype then .error "bitmask should be of type int32."
  else (coreFillNextTokenBitmask m bitmask.rows index).map
    (fun rows => ({ bitmask with rows := rows }, m))

/-- Modelled from the spec: `rollback` of the native core (sections 4.3 and
4.5), absent from src/.  Rollback is invalid on a terminated matcher; it
fails, without clamping, when the requested depth exceeds the recorded
history (which is itself bounded by both the number of tokens accepted
since the last reset and `max_rollback_tokens`); otherwise it restores the
automaton configuration as of `numTokens` accepted tokens ago and discards
the newer history entries. -/
def rollback (m : Matcher) (numTokens : Nat) : Except String Matcher :=
  if m.terminated then .error "matcher is terminated"
  else if m.history.length < numTokens then .error "rollback depth out of range"
  else
    match numTokens with
    | 0 => .ok m
    | k + 1 =>
      .ok { m with auto := m.history.getD k m.auto,
                   history := m.history.drop (k + 1),
                   numAccepted := m.numAccepted - (k + 1) }

/-- Check if the matcher has terminated (matcher.py lines 238-248). -/
def is_terminated (m : Matcher) : Bool :=
  m.terminated

/-- Modelled from the spec: `reset` of the native core (section 4.5):
any state goes back to Active at the grammar start configuration and the
history is cleared. -/
def reset (m : Matcher) : Matcher :=
  { m with auto := m.cfg.startState, terminated := false,
           history := [], numAccepted := 0 }

/-- Modelled from the spec: the input units admissible at one automaton
configuration (section 4.4): the bytes the engine can consume next. -/
def admissibleUnits (e : MatchingEngine) (s : Nat) : List Nat :=
  (List.range 256).filter (fun u => (e.tryAdvance s u).isSome)

/-- Modelled from the spec: the greedy jump-forward loop (section 4.4):
starting from a configuration, while the accepting condition has not been
reached and exactly one unit is admissible, append that unit and advance;
stop at the first position with zero or several admissible units.  `fuel`
bounds the unrolling of the loop. -/
def jumpForwardAux (e : MatchingEngine) : Nat → Nat → List Nat
  | 0, _ => []
  | fuel + 1, s =>
    if e.isAccepting s then []
    else
      match admissibleUnits e s with
      | [u] =>
        match e.tryAdvance s u with
        | some s' => u :: jumpForwardAux e fuel s'
        | _ => []
      | _ => []

/-- Find the jump-forward string (matcher.py lines 213-225, the underlying
computation modelled from spec section 4.4): a pure query computed on the
current configuration; the matcher is returned unchanged. -/
def find_jump_forward_string (m : Matcher) (fuel : Nat) : List Nat × Matcher :=
  (jumpForwardAux m.cfg.engine fuel m.auto, m)

/-- Modelled from the spec: accepting one raw input unit, the
`accept_token`-equivalent single-unit call of sections 4.5 and 8 (compare
`_debug_accept_string`): a usage error on a terminated matcher, otherwise
one engine step, reporting rejection as a normal `false` with the state
unchanged. -/
def acceptUnit (m : Matcher) (u : Nat) : Except String (Bool × Matcher) :=
  if m.terminated then .error "matcher is terminated"
  else
    match m.cfg.engine.tryAdvance m.auto u with
    | some s' =>
      .ok (true, { m with auto := s',
                          terminated := m.cfg.terminateWithoutStopToken
                            && m.cfg.engine.isAccepting s' })
    | none => .ok (false, m)

/-- Feeding a sequence of units one at a time; defined only when every
single call succeeds and returns `true`. -/
def acceptUnitSeq (m : Matcher) : List Nat → Option Matcher
  | [] => some m
  | u :: rest =>
    match acceptUnit m u with
    | .ok (true, m') => acceptUnitSeq m' rest
    | _ => none

/-- Feeding a sequence of tokens through `accept_token`; defined only when
every single call succeeds and returns `true`. -/
def acceptSeq (m : Matcher) : List Nat → Option Matcher
  | [] => some m
  | t :: rest =>
    match accept_token m t with
    | .ok (true, m') => acceptSeq m' rest
    | _ => none

/-- The `override_stop_tokens` argument of the wrapper constructor: absent,
a bare token id, or a list of token ids (matcher.py line 154). -/
inductive StopTokensArg where
  | omitted
  | single (t : Nat)
  | list (ts : List Nat)

/-- The normalization `GrammarMatcher.__init__` performs (matcher.py lines
161-162): a bare integer becomes a one-element list before it is handed to
the native core. -/
def normalizeStopTokens : StopTokensArg → Option (List Nat)
  | .omitted => none
  | .single t => some [t]
  | .list ts => some ts

/-- `GrammarMatcher.__init__` (matcher.py lines 150-171): normalize the
stop-token override and construct the native matcher over the compiled
grammar (the core construction, absent from src/, is modelled from spec
section 6: the override replaces the grammar-derived stop tokens when
present). -/
def GrammarMatcher.make (cg : CompiledGrammar) (overrideStopTokens : StopTokensArg)
    (terminateWithoutStopToken : Bool) (maxRollbackTokens : Nat) : Matcher :=
  Matcher.init
    { engine := cg.engine
      startState := cg.startState
      vocab := cg.vocab
      stopTokens := (normalizeStopTokens overrideStopTokens).getD cg.grammarStopTokens
      terminateWithoutStopToken := terminateWithoutStopToken
      maxRollbackTokens := maxRollbackTokens }

/-- The bit of token `t` in row `i` of a packed bitmask tensor, per the
section 6 bit layout convention: bit position `t % 32` of word `t / 32`. -/
def tensorBit (bm : Tensor) (i t : Nat) : Bool :=
  Nat.testBit ((bm.rows.getD i []).getD (t / 32) 0) (t % 32)

/-! ### A concrete instance, used to evaluate the theorems on real inputs

The running example is the two-byte grammar `"ab"`: configurations 0, 1, 2
with 0 --97--> 1 --98--> 2 and 2 accepting.  The vocabulary has four
tokens: token 0 is the byte `a`, token 1 the byte `b`, token 2 the
two-byte string `ab`, and token 3 is the stop token. -/

/-- Engine of the example grammar `"ab"`. -/
def egEngine : MatchingEngine where
  tryAdvance := fun s u =>
    if s == 0 && u == 97 then some 1
    else if s == 1 && u == 98 then some 2
    else none
  isAccepting := fun s => s == 2

/-- The example compiled grammar. -/
def egGrammar : CompiledGrammar where
  engine := egEngine
  startState := 0
  vocab := [[97], [98], [97, 98], [0]]
  grammarStopTokens := [3]

/-- The example matcher, fresh from construction, rollback capacity 2. -/
def egMatcher : Matcher :=
  GrammarMatcher.make egGrammar .omitted false 2

/-- The example matcher after accepting token 0 (`a`) then token 1 (`b`). -/
def egAfterAB : Matcher :=
  { cfg := egMatcher.cfg, auto := 2, terminated := false,
    history := [1, 0], numAccepted := 2 }

/-- The example matcher after additionally accepting the stop token. -/
def egTerminated : Matcher :=
  { cfg := egMatcher.cfg, auto := 2, terminated := true,
    history := [2, 1], numAccepted := 3 }

/-- A freshly allocated 1-by-1 bitmask buffer for the example. -/
def egBitmask : Tensor :=
  { deviceType := "cpu", dtype := DType.int32, rows := [[0]], pinned := false }

/-- The same buffer placed on a CUDA device. -/
def egCudaBitmask : Tensor :=
  { deviceType := "cuda", dtype := DType.int32, rows := [[0]], pinned := true }

/-- The buffer after filling row 0 at the example start state: tokens 0
(`a`) and 2 (`ab`) are admissible, so the packed word is 0b101 = 5. -/
def egFilled : Tensor :=
  { deviceType := "cpu", dtype := DType.int32, rows := [[5]], pinned := false }

/-! ## Theorems -/

/-- C10: for every compiled grammar and integer `n`, constructing the
matcher with `override_stop_tokens = n` behaves identically to constructing
it with `override_stop_tokens = [n]`: the wrapper normalizes a bare integer
to a one-element list before passing it to the core matcher. -/
theorem make_single_stop_token_eq_list (cg : CompiledGrammar) (n : Nat)
    (twst : Bool) (mrt : Nat) :
    GrammarMatcher.make cg (.single n) twst mrt
      = GrammarMatcher.make cg (.list [n]) twst mrt := rfl

/-- C9: `get_bitmask_shape b v` is `(b, ceil (v / 32))` (the second
component is the least `q` with `v ≤ 32 * q`), and `allocate_token_bitmask`
returns a tensor of exactly that shape whose elements are 32-bit
integers. -/
theorem bitmask_shape_allocate (c : Bool) (b v : Nat) (hb : 1 ≤ b) (hv : 1 ≤ v) :
    (get_bitmask_shape b v).1 = b ∧
    v ≤ 32 * (get_bitmask_shape b v).2 ∧
    32 * (get_bitmask_shape b v).2 < v + 32 ∧
    (allocate_token_bitmask c b v).dtype = DType.int32 ∧
    (allocate_token_bitmask c b v).rows.length = b ∧
    ∀ r ∈ (allocate_token_bitmask c b v).rows, r.length = (get_bitmask_shape b v).2 := by
  refine ⟨rfl, ?_, ?_, rfl, ?_, ?_⟩
  · show v ≤ 32 * ((v + 31) / 32)
    omega
  · show 32 * ((v + 31) / 32) < v + 32
    omega
  · simp [allocate_token_bitmask]
  · intro r hr
    simp only [allocate_token_bitmask] at hr
    rw [List.eq_of_mem_replicate hr]
    simp

/-- Evaluation of C9 at batch size 2 and vocabulary size 100. -/
theorem bitmask_shape_allocate_eval :
    1 ≤ 2 ∧ 1 ≤ 100 ∧
    (get_bitmask_shape 2 100).1 = 2 ∧
    100 ≤ 32 * (get_bitmask_shape 2 100).2 ∧
    (allocate_token_bitmask false 2 100).rows.length = 2 :=
  ⟨by decide, by decide,
   (bitmask_shape_allocate false 2 100 (by decide) (by decide)).1,
   (bitmask_shape_allocate false 2 100 (by decide) (by decide)).2.1,
   (bitmask_shape_allocate false 2 100 (by decide) (by decide)).2.2.2.2.1⟩

/-- C6: on a live matcher, `accept_token` with an in-vocabulary token never
raises: it returns a boolean as a normal value, and when that boolean is
`false` the matcher state is exactly the state before the call
(all-or-nothing, with no partial progress on multi-unit tokens). -/
theorem accept_reject_no_mutation (m : Matcher) (t : Nat)
    (hterm : m.terminated = false) (ht : t < m.cfg.vocab.length) :
    ∃ b m', accept_token m t = .ok (b, m') ∧ (b = false → m' = m) := by
  unfold accept_token
  rw [hterm]
  rw [List.getElem?_eq_getElem ht]
  simp only [Bool.false_eq_true, if_false]
  by_cases hstop : m.cfg.stopTokens.contains t
  · rw [if_pos hstop]
    by_cases hacc : m.cfg.engine.isAccepting m.auto
    · rw [if_pos hacc]
      exact ⟨true, _, rfl, by simp⟩
    · rw [if_neg hacc]
      exact ⟨false, m, rfl, fun _ => rfl⟩
  · rw [if_neg hstop]
    cases hch : chainAdvance m.cfg.engine m.auto m.cfg.vocab[t] with
    | some s' => exact ⟨true, _, rfl, by simp⟩
    | none => exact ⟨false, m, rfl, fun _ => rfl⟩

/-- Evaluation of C6 on the example matcher and the inadmissible token 1. -/
theorem accept_reject_no_mutation_eval :
    egMatcher.terminated = false ∧ 1 < egMatcher.cfg.vocab.length ∧
    ∃ b m', accept_token egMatcher 1 = .ok (b, m') ∧ (b = false → m' = egMatcher) :=
  ⟨rfl, by decide, accept_reject_no_mutation egMatcher 1 rfl (by decide)⟩

/-- C7: on a live matcher, `rollback 0` is a no-op that succeeds and leaves
the state unchanged; and whenever the requested depth exceeds either the
number of tokens accepted since the last reset or the configured
`max_rollback_tokens` (in particular at depth `max_rollback_tokens + 1`),
`rollback` fails with an error instead of clamping.  The two well-formedness
hypotheses hold in every state the operations can reach: the history never
outgrows the capacity nor the count of accepted tokens. -/
theorem rollback_zero_and_bounds (m : Matcher) (n : Nat)
    (hna : m.history.length ≤ m.numAccepted)
    (hcap : m.history.length ≤ m.cfg.maxRollbackTokens) :
    (m.terminated = false → rollback m 0 = .ok m) ∧
    (m.cfg.maxRollbackTokens < n ∨ m.numAccepted < n →
      ∃ e, rollback m n = .error e) := by
  constructor
  · intro hterm
    unfold rollback
    rw [hterm]
    simp
  · intro hbig
    unfold rollback
    by_cases hterm : m.terminated
    · rw [if_pos hterm]
      exact ⟨_, rfl⟩
    · rw [if_neg hterm]
      have hlt : m.history.length < n := by omega
      rw [if_pos hlt]
      exact ⟨_, rfl⟩

/-- Evaluation of C7 on the example matcher after two accepted tokens:
depth 0 is a no-op and depth 3 (capacity plus one) fails. -/
theorem rollback_zero_and_bounds_eval :
    rollback egAfterAB 0 = .ok egAfterAB ∧
    ∃ e, rollback egAfterAB 3 = .error e :=
  ⟨(rollback_zero_and_bounds egAfterAB 3 (by decide) (by decide)).1 rfl,
   (rollback_zero_and_bounds egAfterAB 3 (by decide) (by decide)).2
     (Or.inl (by decide))⟩

/-- C4: termination is absorbing.  Once the matcher is terminated, every
`accept_token` call, every `fill_next_token_bitmask` call and every
`rollback` call fails with an error (and therefore cannot change the
state), the jump-forward query leaves the state unchanged, and `reset` is
the operation that returns the matcher to a usable (non-terminated) start
state. -/
theorem terminated_absorbing (m : Matcher) (h : m.terminated = true) :
    (∀ t, accept_token m t = .error "matcher is terminated") ∧
    (∀ bm i, ∃ e, fill_next_token_bitmask m bm i = .error e) ∧
    (∀ n, rollback m n = .error "matcher is terminated") ∧
    (∀ fuel, (find_jump_forward_string m fuel).2 = m) ∧
    (reset m).terminated = false := by
  refine ⟨fun t => ?_, fun bm i => ?_, fun n => ?_, fun fuel => rfl, rfl⟩
  · unfold accept_token
    rw [h]
    simp
  · unfold fill_next_token_bitmask
    by_cases hdev : bm.deviceType = "cpu"
    · rw [if_neg (by simp [hdev])]
      by_cases hdt : bm.dtype = bitmask_dtype
      · rw [if_neg (by simp [hdt])]
        unfold coreFillNextTokenBitmask
        rw [if_pos h]
        exact ⟨_, rfl⟩
      · rw [if_pos (by simp [hdt])]
        exact ⟨_, rfl⟩
    · rw [if_pos (by simp [hdev])]
      exact ⟨_, rfl⟩
  · unfold rollback
    rw [if_pos h]

/-- Evaluation of C4 on the terminated example matcher. -/
theorem terminated_absorbing_eval :
    egTerminated.terminated = true ∧
    accept_token egTerminated 0 = .error "matcher is terminated" ∧
    (∃ e, fill_next_token_bitmask egTerminated egBitmask 0 = .error e) ∧
    rollback egTerminated 1 = .error "matcher is terminated" ∧
    (reset egTerminated).terminated = false :=
  ⟨rfl, (terminated_absorbing egTerminated rfl).1 0,
   (terminated_absorbing egTerminated rfl).2.1 egBitmask 0,
   (terminated_absorbing egTerminated rfl).2.2.1 1,
   (terminated_absorbing egTerminated rfl).2.2.2.2⟩

/-- A unit that is the sole element of the admissible-unit list does advance
the engine. -/
theorem admissible_singleton_isSome (e : MatchingEngine) (s u : Nat)
    (h : admissibleUnits e s = [u]) : (e.tryAdvance s u).isSome := by
  have hu : u ∈ admissibleUnits e s := by
    rw [h]
    exact List.mem_singleton_self u
  unfold admissibleUnits at hu
  exact (List.mem_filter.mp hu).2

/-- Accepting a unit the engine can consume on a live matcher succeeds and
moves the automaton one step. -/
theorem acceptUnit_ok (m : Matcher) (u s' : Nat) (hterm : m.terminated = false)
    (htry : m.cfg.engine.tryAdvance m.auto u = some s') :
    acceptUnit m u = .ok (true, { m with
      auto := s',
      terminated := (m.cfg.terminateWithoutStopToken
        && m.cfg.engine.isAccepting s') }) := by
  unfold acceptUnit
  rw [hterm]
  simp [htry]

/-- The greedy jump-forward string is accepted unit by unit from any live
matcher at the configuration it was computed from. -/
theorem jumpForwardAux_sound (fuel : Nat) : ∀ (m : Matcher), m.terminated = false →
    ∃ m', acceptUnitSeq m (jumpForwardAux m.cfg.engine fuel m.auto) = some m' := by
  induction fuel with
  | zero => exact fun m _ => ⟨m, rfl⟩
  | succ fuel ih =>
    intro m hterm
    by_cases hacc : m.cfg.engine.isAccepting m.auto
    · exact ⟨m, by simp [jumpForwardAux, hacc, acceptUnitSeq]⟩
    · rcases hu : admissibleUnits m.cfg.engine m.auto with _ | ⟨u, _ | ⟨v, rest⟩⟩
      · exact ⟨m, by simp [jumpForwardAux, hacc, hu, acceptUnitSeq]⟩
      · have hsome := admissible_singleton_isSome _ _ _ hu
        cases htry : m.cfg.engine.tryAdvance m.auto u with
        | none => rw [htry] at hsome; simp at hsome
        | some s' =>
          have hstep := acceptUnit_ok m u s' hterm htry
          by_cases hacc' : m.cfg.engine.isAccepting s'
          · have htail : jumpForwardAux m.cfg.engine fuel s' = [] := by
              cases fuel with
              | zero => rfl
              | succ f => simp [jumpForwardAux, hacc']
            refine ⟨{ m with
              auto := s',
              terminated := (m.cfg.terminateWithoutStopToken
                && m.cfg.engine.isAccepting s') }, ?_⟩
            simp [jumpForwardAux, hacc, hu, htry, acceptUnitSeq, hstep, htail]
          · have hterm2 : ({ m with
                auto := s',
                terminated := (m.cfg.terminateWithoutStopToken
                  && m.cfg.engine.isAccepting s') } : Matcher).terminated = false := by
              simp [hacc']
            obtain ⟨m', hm'⟩ := ih _ hterm2
            refine ⟨m', ?_⟩
            simp only [jumpForwardAux, hacc, if_false, hu, htry, Bool.false_eq_true]
            simp only [acceptUnitSeq, hstep]
            exact hm'
      · exact ⟨m, by simp [jumpForwardAux, hacc, hu, acceptUnitSeq]⟩

/-- C5: jump-forward soundness.  On a live matcher, the string returned by
`find_jump_forward_string` is itself admissible from the current state:
feeding its units one at a time through the `accept_token`-equivalent
single-unit call succeeds at every step (never returns false); and the call
itself leaves the matcher state unchanged. -/
theorem jump_forward_sound (m : Matcher) (fuel : Nat) (h : m.terminated = false) :
    (∃ m', acceptUnitSeq m (find_jump_forward_string m fuel).1 = some m') ∧
    (find_jump_forward_string m fuel).2 = m :=
  ⟨jumpForwardAux_sound fuel m h, rfl⟩

/-- Evaluation of C5 on the example matcher: the jump-forward string at the
start state is `"ab"` and is accepted unit by unit. -/
theorem jump_forward_sound_eval :
    egMatcher.terminated = false ∧
    (find_jump_forward_string egMatcher 5).1 = [97, 98] ∧
    (∃ m', acceptUnitSeq egMatcher (find_jump_forward_string egMatcher 5).1 = some m') ∧
    (find_jump_forward_string egMatcher 5).2 = egMatcher :=
  ⟨rfl, by decide, (jump_forward_sound egMatcher 5 rfl).1,
   (jump_forward_sound egMatcher 5 rfl).2⟩

/-- Bit `k` of a packed word is element `k` of the bit list. -/
theorem bitsToWord_testBit (bits : List Bool) : ∀ (k : Nat),
    Nat.testBit (bitsToWord bits) k = bits.getD k false := by
  induction bits with
  | nil => intro k; simp [bitsToWord]
  | cons b rest ih =>
    intro k
    have hw : bitsToWord (b :: rest) = 2 * bitsToWord rest + (if b then 1 else 0) := rfl
    cases k with
    | zero =>
      rw [hw, Nat.testBit_zero]
      cases b <;> simp <;> omega
    | succ k =>
      rw [hw, Nat.testBit_add_one]
      have hdiv : (2 * bitsToWord rest + (if b then 1 else 0)) / 2 = bitsToWord rest := by
        cases b <;> simp <;> omega
      rw [hdiv]
      simpa using ih k

/-- Bit `t % 32` of word `t / 32` of the packed mask is mask bit `t`. -/
theorem maskWords_testBit (mask : List Bool) (t : Nat) (ht : t < mask.length) :
    Nat.testBit ((maskWords mask).getD (t / 32) 0) (t % 32) = mask.getD t false := by
  have hlt : t / 32 < (mask.length + 31) / 32 := by omega
  have hword : (maskWords mask).getD (t / 32) 0
      = bitsToWord ((mask.drop (32 * (t / 32))).take 32) := by
    unfold maskWords
    rw [List.getD_eq_getElem?_getD, List.getElem?_map, List.getElem?_range hlt]
    rfl
  rw [hword, bitsToWord_testBit]
  rw [List.getD_eq_getElem?_getD, List.getD_eq_getElem?_getD]
  rw [List.getElem?_take_of_lt (Nat.mod_lt t (by omega)), List.getElem?_drop]
  congr 2
  omega

/-- The unpacked mask has one bit per vocabulary token id. -/
theorem length_nextTokenMask (m : Matcher) :
    (nextTokenMask m).length = m.cfg.vocab.length := by
  simp [nextTokenMask]

/-- Bit `t` of the unpacked mask is the admissibility bit of token `t`. -/
theorem nextTokenMask_getD (m : Matcher) (t : Nat) (ht : t < m.cfg.vocab.length) :
    (nextTokenMask m).getD t false = tokenBit m t := by
  unfold nextTokenMask
  rw [List.getD_eq_getElem?_getD, List.getElem?_map, List.getElem?_range ht]
  rfl

/-- Everything a successful wrapper fill guarantees: the matcher is
returned unchanged and live, the device, dtype and pinning of the buffer
are untouched, and the rows are the old rows with the packed mask words
written at the start of row `index`. -/
theorem fill_ok_elim (m : Matcher) (bm bm' : Tensor) (m₂ : Matcher) (i : Nat)
    (h : fill_next_token_bitmask m bm i = .ok (bm', m₂)) :
    m₂ = m ∧ m.terminated = false ∧ bm.deviceType = "cpu" ∧
    bm.dtype = bitmask_dtype ∧ bm'.deviceType = bm.deviceType ∧
    bm'.dtype = bm.dtype ∧ bm'.pinned = bm.pinned ∧
    ∃ row, bm.rows[i]? = some row ∧
      (maskWords (nextTokenMask m)).length ≤ row.length ∧
      bm'.rows = bm.rows.set i (maskWords (nextTokenMask m)
        ++ row.drop (maskWords (nextTokenMask m)).length) := by
  unfold fill_next_token_bitmask at h
  split at h
  · exact absurd h (by simp)
  · next hdev =>
    split at h
    · exact absurd h (by simp)
    · next hdt =>
      unfold coreFillNextTokenBitmask at h
      split at h
      · next hterm => exact absurd h (by simp [Except.map])
      · next hterm =>
        split at h
        · exact absurd h (by simp [Except.map])
        · next row hrow =>
          split at h
          · exact absurd h (by simp [Except.map])
          · next hsmall =>
            simp only [Except.map, Except.ok.injEq, Prod.mk.injEq] at h
            obtain ⟨hbm', hm₂⟩ := h
            subst hm₂
            refine ⟨rfl, by simpa using hterm, by simpa using hdev,
              by simpa using hdt, ?_, ?_, ?_, row, hrow, by omega, ?_⟩
            · rw [show bm' = _ from hbm'.symm]
            · rw [show bm' = _ from hbm'.symm]
            · rw [show bm' = _ from hbm'.symm]
            · rw [show bm' = _ from hbm'.symm]

/-- Bit `t` of row `i` of the buffer a successful fill produced is exactly
the admissibility bit of token `t` at the matcher state. -/
theorem fill_tensorBit (m : Matcher) (bm bm' : Tensor) (m₂ : Matcher) (i t : Nat)
    (h : fill_next_token_bitmask m bm i = .ok (bm', m₂))
    (ht : t < m.cfg.vocab.length) :
    tensorBit bm' i t = tokenBit m t := by
  obtain ⟨-, -, -, -, -, -, -, row, hrow, hlen, hrows⟩ := fill_ok_elim m bm bm' m₂ i h
  have hi : i < bm.rows.length := by
    by_contra hcon
    rw [List.getElem?_eq_none (by omega)] at hrow
    exact Option.noConfusion hrow
  have hmlen : t < (nextTokenMask m).length := by rw [length_nextTokenMask]; exact ht
  have hwords : t / 32 < (maskWords (nextTokenMask m)).length := by
    unfold maskWords
    rw [List.length_map, List.length_range, length_nextTokenMask]
    omega
  unfold tensorBit
  rw [hrows]
  have hset : (bm.rows.set i (maskWords (nextTokenMask m)
      ++ row.drop (maskWords (nextTokenMask m)).length)).getD i ([] : List Nat)
      = maskWords (nextTokenMask m)
        ++ row.drop (maskWords (nextTokenMask m)).length := by
    rw [List.getD_eq_getElem?_getD, List.getElem?_set_self hi]
    rfl
  rw [hset]
  have happ : (maskWords (nextTokenMask m)
      ++ row.drop (maskWords (nextTokenMask m)).length).getD (t / 32) 0
      = (maskWords (nextTokenMask m)).getD (t / 32) 0 := by
    rw [List.getD_eq_getElem?_getD, List.getD_eq_getElem?_getD,
      List.getElem?_append_left hwords]
  rw [happ, maskWords_testBit _ _ hmlen]
  exact nextTokenMask_getD m t ht

/-- The admissibility bit of a token decides `accept_token` on a live
matcher: bit 0 means rejection with the state unchanged, bit 1 means
acceptance. -/
theorem tokenBit_accept (m : Matcher) (t : Nat)
    (hterm : m.terminated = false) (ht : t < m.cfg.vocab.length) :
    (tokenBit m t = false → accept_token m t = .ok (false, m)) ∧
    (tokenBit m t = true → ∃ m', accept_token m t = .ok (true, m')) := by
  unfold tokenBit accept_token
  rw [hterm, List.getElem?_eq_getElem ht]
  simp only [Bool.false_eq_true, if_false]
  by_cases hstop : m.cfg.stopTokens.contains t
  · rw [if_pos hstop, if_pos hstop]
    by_cases hacc : m.cfg.engine.isAccepting m.auto
    · rw [if_pos hacc]
      exact ⟨fun hc => absurd hacc (by simp [hc]), fun _ => ⟨_, rfl⟩⟩
    · rw [if_neg hacc]
      exact ⟨fun _ => rfl, fun hc => absurd hc (by simpa using hacc)⟩
  · rw [if_neg hstop, if_neg hstop]
    cases hch : chainAdvance m.cfg.engine m.auto m.cfg.vocab[t] with
    | some s' => exact ⟨by simp, fun _ => ⟨_, rfl⟩⟩
    | none => exact ⟨fun _ => rfl, by simp⟩

/-- C1: mask/accept consistency.  After any successful
`fill_next_token_bitmask` call at state S, for every vocabulary token `t`:
if the bit for `t` in the filled row is 0 then `accept_token t` at S
returns false and leaves the state unchanged, and if the bit is 1 then
`accept_token t` at S returns true. -/
theorem mask_accept_consistency (m : Matcher) (bm bm' : Tensor) (m₂ : Matcher)
    (i t : Nat) (hfill : fill_next_token_bitmask m bm i = .ok (bm', m₂))
    (ht : t < m.cfg.vocab.length) :
    (tensorBit bm' i t = false → accept_token m t = .ok (false, m)) ∧
    (tensorBit bm' i t = true → ∃ m', accept_token m t = .ok (true, m')) := by
  have hterm := (fill_ok_elim m bm bm' m₂ i hfill).2.1
  rw [fill_tensorBit m bm bm' m₂ i t hfill ht]
  exact tokenBit_accept m t hterm ht

/-- Evaluation of C1 on the example matcher: the filled mask has bit 1
clear and bit 2 set, and `accept_token` behaves accordingly. -/
theorem mask_accept_consistency_eval :
    fill_next_token_bitmask egMatcher egBitmask 0 = .ok (egFilled, egMatcher) ∧
    accept_token egMatcher 1 = .ok (false, egMatcher) ∧
    (∃ m', accept_token egMatcher 2 = .ok (true, m')) :=
  ⟨rfl,
   (mask_accept_consistency egMatcher egBitmask egFilled egMatcher 0 1 rfl
     (by decide)).1 (by decide),
   (mask_accept_consistency egMatcher egBitmask egFilled egMatcher 0 2 rfl
     (by decide)).2 (by decide)⟩

/-- C2: determinism of the mask.  A successful `fill_next_token_bitmask`
leaves the matcher unchanged, and repeating the call at the same state with
no mutating operation in between writes a bit-identical mask: the buffer
row is reproduced exactly. -/
theorem fill_deterministic (m : Matcher) (bm bm' : Tensor) (m₂ : Matcher) (i : Nat)
    (h : fill_next_token_bitmask m bm i = .ok (bm', m₂)) :
    m₂ = m ∧ fill_next_token_bitmask m bm' i = .ok (bm', m₂) := by
  obtain ⟨hm₂, hterm, hdev, hdt, hdev', hdt', hpin, row, hrow, hlen, hrows⟩ :=
    fill_ok_elim m bm bm' m₂ i h
  have hi : i < bm.rows.length := by
    by_contra hcon
    rw [List.getElem?_eq_none (by omega)] at hrow
    exact Option.noConfusion hrow
  have hcore : coreFillNextTokenBitmask m bm'.rows i = .ok bm'.rows := by
    unfold coreFillNextTokenBitmask
    rw [hterm]
    simp only [Bool.false_eq_true, if_false]
    rw [hrows, List.getElem?_set_self hi]
    simp only [List.drop_left]
    rw [if_neg (by simp)]
    rw [List.set_set]
  refine ⟨hm₂, ?_⟩
  rw [hm₂]
  unfold fill_next_token_bitmask
  rw [if_neg (by simp [hdev', hdev]), if_neg (by simp [hdt', hdt]), hcore]
  rfl

/-- Evaluation of C2 on the example matcher: refilling the already filled
buffer reproduces it bit for bit. -/
theorem fill_deterministic_eval :
    fill_next_token_bitmask egMatcher egBitmask 0 = .ok (egFilled, egMatcher) ∧
    fill_next_token_bitmask egMatcher egFilled 0 = .ok (egFilled, egMatcher) :=
  ⟨rfl, (fill_deterministic egMatcher egBitmask egFilled egMatcher 0 rfl).2⟩

/-- C8: the wrapper guards of `fill_next_token_bitmask`.  The call fails
with an error, writing nothing, whenever the buffer is not on the CPU
device or its element type is not the packed 32-bit integer format; and
when it succeeds it does not mutate the matcher state and writes only row
`i` of the buffer: every other row (and the device, dtype and pinning) is
unchanged. -/
theorem fill_guards_and_frame (m : Matcher) (bm : Tensor) (i : Nat) :
    ((bm.deviceType ≠ "cpu" ∨ bm.dtype ≠ bitmask_dtype) →
      ∃ e, fill_next_token_bitmask m bm i = .error e) ∧
    (∀ bm' m₂, fill_next_token_bitmask m bm i = .ok (bm', m₂) →
      m₂ = m ∧ bm'.deviceType = bm.deviceType ∧ bm'.dtype = bm.dtype ∧
      bm'.pinned = bm.pinned ∧ bm'.rows.length = bm.rows.length ∧
      ∀ j, j ≠ i → bm'.rows[j]? = bm.rows[j]?) := by
  constructor
  · intro hbad
    unfold fill_next_token_bitmask
    by_cases hdev : bm.deviceType = "cpu"
    · have hdt : bm.dtype ≠ bitmask_dtype := hbad.resolve_left (by simp [hdev])
      rw [if_neg (by simp [hdev]), if_pos hdt]
      exact ⟨_, rfl⟩
    · rw [if_pos hdev]
      exact ⟨_, rfl⟩
  · intro bm' m₂ hok
    obtain ⟨hm₂, -, -, -, hdev', hdt', hpin, row, hrow, hlen, hrows⟩ :=
      fill_ok_elim m bm bm' m₂ i hok
    refine ⟨hm₂, hdev', hdt', hpin, ?_, ?_⟩
    · rw [hrows, List.length_set]
    · intro j hj
      rw [hrows, List.getElem?_set_ne (by omega)]

/-- Evaluation of C8: filling a CUDA buffer fails, and a successful fill of
the CPU buffer returns the matcher unchanged. -/
theorem fill_guards_and_frame_eval :
    (∃ e, fill_next_token_bitmask egMatcher egCudaBitmask 0 = .error e) ∧
    egFilled.rows.length = egBitmask.rows.length ∧
    egFilled.rows[1]? = egBitmask.rows[1]? :=
  ⟨(fill_guards_and_frame egMatcher egCudaBitmask 0).1 (Or.inl (by decide)),
   ((fill_guards_and_frame egMatcher egBitmask 0).2 egFilled egMatcher rfl).2.2.2.2.1,
   ((fill_guards_and_frame egMatcher egBitmask 0).2 egFilled egMatcher rfl).2.2.2.2.2
     1 (by decide)⟩

/-- What a true `accept_token` return reveals, field by field: the matcher
was live, the configuration is shared, the pre-token automaton state was
pushed onto the (capacity-truncated) history, the accept count grew by one,
and the new automaton state and termination flag are a function of the
configuration and the old automaton state alone. -/
theorem accept_ok_true_elim (m : Matcher) (t : Nat) (m' : Matcher)
    (h : accept_token m t = .ok (true, m')) :
    m.terminated = false ∧ m'.cfg = m.cfg ∧
    m'.history = (m.auto :: m.history).take m.cfg.maxRollbackTokens ∧
    m'.numAccepted = m.numAccepted + 1 ∧
    stepResult m.cfg m.auto t = some (m'.auto, m'.terminated) := by
  unfold accept_token pushHistory at h
  split at h
  · exact absurd h (by simp)
  · next hterm =>
    split at h
    · exact absurd h (by simp)
    · next units hv =>
      split at h
      · next hstop =>
        split at h
        · next hacc =>
          simp only [Except.ok.injEq, Prod.mk.injEq, true_and] at h
          refine ⟨by simpa using hterm, ?_, ?_, ?_, ?_⟩
          · rw [← h]
          · rw [← h]
          · rw [← h]
          · rw [← h]
            have hstop' : t ∈ m.cfg.stopTokens := by simpa using hstop
            simp [stepResult, hv, hstop', hacc]
        · exact absurd h (by simp)
      · next hstop =>
        split at h
        · next s' hch =>
          simp only [Except.ok.injEq, Prod.mk.injEq, true_and] at h
          refine ⟨by simpa using hterm, ?_, ?_, ?_, ?_⟩
          · rw [← h]
          · rw [← h]
          · rw [← h]
          · rw [← h]
            have hstop' : t ∉ m.cfg.stopTokens := by simpa using hstop
            simp [stepResult, hv, hstop', hch]
        · exact absurd h (by simp)

/-- The converse direction: on a live matcher, a defined step result forces
`accept_token` to succeed with exactly the predicted state. -/
theorem accept_ok_true_intro (m : Matcher) (t rs : Nat) (rb : Bool)
    (hterm : m.terminated = false)
    (hr : stepResult m.cfg m.auto t = some (rs, rb)) :
    accept_token m t = .ok (true, { m with
      auto := rs,
      terminated := rb,
      history := (m.auto :: m.history).take m.cfg.maxRollbackTokens,
      numAccepted := m.numAccepted + 1 }) := by
  cases hv : m.cfg.vocab[t]? with
  | none =>
    rw [stepResult, hv] at hr
    exact absurd hr (by simp)
  | some units =>
    by_cases hstop : t ∈ m.cfg.stopTokens
    · by_cases hacc : m.cfg.engine.isAccepting m.auto
      · have hr' : stepResult m.cfg m.auto t = some (m.auto, true) := by
          simp [stepResult, hv, hstop, hacc]
        rw [hr'] at hr
        simp only [Option.some.injEq, Prod.mk.injEq] at hr
        obtain ⟨h1, h2⟩ := hr
        rw [← h1, ← h2]
        simp [accept_token, pushHistory, hterm, hv, hstop, hacc]
      · have hr' : stepResult m.cfg m.auto t = none := by
          simp [stepResult, hv, hstop, hacc]
        rw [hr'] at hr
        exact absurd hr (by simp)
    · cases hch : chainAdvance m.cfg.engine m.auto units with
      | some s' =>
        have hr' : stepResult m.cfg m.auto t
            = some (s', m.cfg.terminateWithoutStopToken
              && m.cfg.engine.isAccepting s') := by
          simp [stepResult, hv, hstop, hch]
        rw [hr'] at hr
        simp only [Option.some.injEq, Prod.mk.injEq] at hr
        obtain ⟨h1, h2⟩ := hr
        rw [← h1, ← h2]
        simp [accept_token, pushHistory, hterm, hv, hstop, hch]
      | none =>
        have hr' : stepResult m.cfg m.auto t = none := by
          simp [stepResult, hv, hstop, hch]
        rw [hr'] at hr
        exact absurd hr (by simp)

/-- Truncating an already-truncated right summand does not change a
truncated append. -/
theorem take_append_take (n : Nat) (A B : List Nat) :
    (A ++ B.take n).take n = (A ++ B).take n := by
  rw [List.take_append_eq_append_take, List.take_append_eq_append_take,
    List.take_take, Nat.min_eq_left (Nat.sub_le n A.length)]

/-- Pushing the same entry onto two histories that agree on their first
`mx - (L + 1)` entries yields histories that agree on their first `mx - L`
entries after capacity truncation. -/
theorem take_push_congr (a : Nat) (H H' : List Nat) (mx L : Nat)
    (h : H'.take (mx - (L + 1)) = H.take (mx - (L + 1))) :
    ((a :: H').take mx).take (mx - L) = ((a :: H).take mx).take (mx - L) := by
  rw [List.take_take, List.take_take, Nat.min_eq_left (Nat.sub_le mx L)]
  cases hc : mx - L with
  | zero => simp
  | succ c =>
    rw [List.take_succ_cons, List.take_succ_cons]
    have hcc : c = mx - (L + 1) := by omega
    rw [hcc, h]

/-- A run over a concatenation splits into two runs. -/
theorem acceptSeq_append (A B : List Nat) : ∀ (m1 m2 : Matcher),
    acceptSeq m1 (A ++ B) = some m2 →
    ∃ mid, acceptSeq m1 A = some mid ∧ acceptSeq mid B = some m2 := by
  induction A with
  | nil => exact fun m1 m2 h => ⟨m1, rfl, h⟩
  | cons t rest ih =>
    intro m1 m2 h
    rw [List.cons_append] at h
    simp only [acceptSeq] at h ⊢
    cases hstep : accept_token m1 t with
    | error e => rw [hstep] at h; simp at h
    | ok p =>
      obtain ⟨b, ma⟩ := p
      cases b with
      | false => rw [hstep] at h; simp at h
      | true =>
        rw [hstep] at h
        simp only at h
        exact ih ma m2 h

/-- The shape of the state after a successful run of `n` accepted tokens:
the configuration is untouched, the accept count grows by `n`, and the
history is the `n` pre-token automaton states (newest first) pushed onto
the old history, truncated to capacity; the oldest of those `n` entries is
the automaton state the run started from. -/
theorem acceptSeq_structure (ts : List Nat) : ∀ (m1 m2 : Matcher),
    acceptSeq m1 ts = some m2 →
    m1.history.length ≤ m1.cfg.maxRollbackTokens →
    m2.cfg = m1.cfg ∧ m2.numAccepted = m1.numAccepted + ts.length ∧
    m2.history.length ≤ m1.cfg.maxRollbackTokens ∧
    ∃ P, P.length = ts.length ∧
      m2.history = (P ++ m1.history).take m1.cfg.maxRollbackTokens ∧
      (0 < ts.length → P.getD (ts.length - 1) 0 = m1.auto ∧
        m1.terminated = false) := by
  induction ts with
  | nil =>
    intro m1 m2 hacc hlen
    have h2 : m2 = m1 := by simpa [acceptSeq] using hacc.symm
    subst h2
    exact ⟨rfl, rfl, hlen, [], rfl, (List.take_of_length_le hlen).symm,
      fun hpos => absurd hpos (by simp)⟩
  | cons t rest ih =>
    intro m1 m2 hacc hlen
    simp only [acceptSeq] at hacc
    cases hstep : accept_token m1 t with
    | error e => rw [hstep] at hacc; simp at hacc
    | ok p =>
      obtain ⟨b, ma⟩ := p
      cases b with
      | false => rw [hstep] at hacc; simp at hacc
      | true =>
        rw [hstep] at hacc
        simp only at hacc
        obtain ⟨hterm1, hcfga, hhista, hnaa, -⟩ := accept_ok_true_elim m1 t ma hstep
        have hmalen : ma.history.length ≤ ma.cfg.maxRollbackTokens := by
          rw [hhista, hcfga, List.length_take]
          omega
        obtain ⟨hcfg2, hna2, hlen2, P', hP'len, hhist2, -⟩ := ih ma m2 hacc hmalen
        rw [hcfga] at hcfg2 hlen2 hhist2
        refine ⟨hcfg2, ?_, hlen2, P' ++ [m1.auto], ?_, ?_, fun hpos => ⟨?_, hterm1⟩⟩
        · rw [hna2, hnaa, List.length_cons]
          omega
        · simp [hP'len]
        · rw [hhist2, hhista, take_append_take, List.append_cons]
        · rw [List.length_cons, Nat.add_sub_cancel, ← hP'len,
            List.getD_eq_getElem?_getD,
            List.getElem?_append_right (Nat.le_refl P'.length)]
          simp

/-- Replaying the same token sequence from two states that share the
configuration, automaton state, liveness and accept count, and whose
histories agree on every entry that can still matter after the run
(capacity minus run length), rejoins the very same final state. -/
theorem acceptSeq_replay (ts : List Nat) : ∀ (m1 m1' m2 : Matcher),
    acceptSeq m1 ts = some m2 →
    m1'.cfg = m1.cfg → m1'.auto = m1.auto → m1'.terminated = m1.terminated →
    m1'.numAccepted = m1.numAccepted →
    m1'.history.take (m1.cfg.maxRollbackTokens - ts.length)
      = m1.history.take (m1.cfg.maxRollbackTokens - ts.length) →
    m1.history.length ≤ m1.cfg.maxRollbackTokens →
    m1'.history.length ≤ m1.cfg.maxRollbackTokens →
    acceptSeq m1' ts = some m2 := by
  induction ts with
  | nil =>
    intro m1 m1' m2 hacc hcfg hauto hterm hna hhist hl1 hl1'
    have h2 : m2 = m1 := by simpa [acceptSeq] using hacc.symm
    rw [List.length_nil, Nat.sub_zero, List.take_of_length_le hl1',
      List.take_of_length_le hl1] at hhist
    have h1 : m1' = m1 := Matcher.ext hcfg hauto hterm hhist hna
    rw [h1, h2]
    rfl
  | cons t rest ih =>
    intro m1 m1' m2 hacc hcfg hauto hterm hna hhist hl1 hl1'
    simp only [acceptSeq] at hacc ⊢
    cases hstep : accept_token m1 t with
    | error e => rw [hstep] at hacc; simp at hacc
    | ok p =>
      obtain ⟨b, ma⟩ := p
      cases b with
      | false => rw [hstep] at hacc; simp at hacc
      | true =>
        rw [hstep] at hacc
        simp only at hacc
        obtain ⟨hterm1, hcfga, hhista, hnaa, hstepR⟩ :=
          accept_ok_true_elim m1 t ma hstep
        have hstep' : accept_token m1' t = .ok (true, { m1' with
            auto := ma.auto,
            terminated := ma.terminated,
            history := (m1'.auto :: m1'.history).take m1'.cfg.maxRollbackTokens,
            numAccepted := m1'.numAccepted + 1 }) :=
          accept_ok_true_intro m1' t ma.auto ma.terminated
            (by rw [hterm, hterm1]) (by rw [hcfg, hauto]; exact hstepR)
        rw [hstep']
        simp only
        refine ih ma _ m2 hacc ?_ rfl rfl ?_ ?_ ?_ ?_
        · show m1'.cfg = ma.cfg
          rw [hcfg, hcfga]
        · show m1'.numAccepted + 1 = ma.numAccepted
          rw [hna, hnaa]
        · show ((m1'.auto :: m1'.history).take m1'.cfg.maxRollbackTokens).take
            (ma.cfg.maxRollbackTokens - rest.length) = ma.history.take
            (ma.cfg.maxRollbackTokens - rest.length)
          rw [hhista, hcfga, hcfg, hauto]
          apply take_push_congr
          have hL : m1.cfg.maxRollbackTokens - (rest.length + 1)
              = m1.cfg.maxRollbackTokens - (t :: rest).length := by
            rw [List.length_cons]
          rw [hL]
          exact hhist
        · rw [hhista, hcfga, List.length_take]
          omega
        · show ((m1'.auto :: m1'.history).take m1'.cfg.maxRollbackTokens).length
            ≤ ma.cfg.maxRollbackTokens
          rw [hcfga, hcfg, List.length_take]
          omega

/-- C3: rollback inverse law.  If a live state `m` was reached from `m0` by
successfully accepting the tokens `ts` with `ts.length` at most the
rollback capacity, then for every `k ≤ ts.length`, `rollback k` succeeds
and re-accepting the same last `k` tokens returns to exactly the state `m`
— so every subsequent `fill_next_token_bitmask` produces the same mask as
if the rollback had never happened. -/
theorem rollback_replay (m0 m : Matcher) (ts : List Nat) (k : Nat)
    (hlen0 : m0.history.length ≤ m0.cfg.maxRollbackTokens)
    (hacc : acceptSeq m0 ts = some m)
    (hterm : m.terminated = false)
    (hn : ts.length ≤ m0.cfg.maxRollbackTokens)
    (hk : k ≤ ts.length) :
    ∃ m', rollback m k = .ok m' ∧
      acceptSeq m' (ts.drop (ts.length - k)) = some m := by
  cases k with
  | zero =>
    refine ⟨m, ?_, ?_⟩
    · unfold rollback
      rw [hterm]
      simp
    · rw [Nat.sub_zero, List.drop_length]
      rfl
  | succ j =>
    obtain ⟨mid, hA, hB⟩ := acceptSeq_append (ts.take (ts.length - (j + 1)))
      (ts.drop (ts.length - (j + 1))) m0 m
      (by rw [List.take_append_drop]; exact hacc)
    have hBlen : (ts.drop (ts.length - (j + 1))).length = j + 1 := by
      rw [List.length_drop]
      omega
    obtain ⟨hcfgA, hnaA, hlenA, PA, hPAlen, hhistA, -⟩ :=
      acceptSeq_structure _ m0 mid hA hlen0
    have hlenMid : mid.history.length ≤ mid.cfg.maxRollbackTokens := by
      rw [hcfgA]
      exact hlenA
    obtain ⟨hcfgB, hnaB, hlenB, P, hPlen, hhistB, hlast⟩ :=
      acceptSeq_structure _ mid m hB hlenMid
    obtain ⟨hgetP, htermMid⟩ := hlast (by omega)
    rw [hBlen] at hnaB hPlen hgetP
    simp only [Nat.add_sub_cancel] at hgetP
    rw [hcfgA] at hcfgB hlenB hhistB
    have hguard : ¬ m.history.length < j + 1 := by
      rw [hhistB, List.length_take, List.length_append, hPlen]
      omega
    have hroll : rollback m (j + 1) = .ok { m with
        auto := m.history.getD j m.auto,
        history := m.history.drop (j + 1),
        numAccepted := m.numAccepted - (j + 1) } := by
      unfold rollback
      rw [hterm]
      simp only [Bool.false_eq_true, if_false]
      rw [if_neg hguard]
    have hjP : j < P.length := by omega
    have hPj : P[j]? = some mid.auto := by
      rw [List.getElem?_eq_getElem hjP]
      rw [List.getD_eq_getElem?_getD, List.getElem?_eq_getElem hjP] at hgetP
      simpa using hgetP
    have hauto : m.history.getD j m.auto = mid.auto := by
      rw [List.getD_eq_getElem?_getD, hhistB,
        List.getElem?_take_of_lt (by omega : j < m0.cfg.maxRollbackTokens),
        List.getElem?_append_left hjP, hPj]
      rfl
    have hhistR : m.history.drop (j + 1)
        = mid.history.take (m0.cfg.maxRollbackTokens - (j + 1)) := by
      rw [hhistB, List.drop_take, List.drop_left' hPlen]
    refine ⟨_, hroll, ?_⟩
    refine acceptSeq_replay _ mid _ m hB ?_ ?_ ?_ ?_ ?_ hlenMid ?_
    · show m.cfg = mid.cfg
      rw [hcfgB, hcfgA]
    · exact hauto
    · show m.terminated = mid.terminated
      rw [hterm, htermMid]
    · show m.numAccepted - (j + 1) = mid.numAccepted
      rw [hnaB]
      omega
    · show (m.history.drop (j + 1)).take
        (mid.cfg.maxRollbackTokens - (ts.drop (ts.length - (j + 1))).length)
        = mid.history.take
          (mid.cfg.maxRollbackTokens - (ts.drop (ts.length - (j + 1))).length)
      rw [hBlen, hhistR, hcfgA, List.take_take, Nat.min_self]
    · show (m.history.drop (j + 1)).length ≤ mid.cfg.maxRollbackTokens
      rw [hcfgA, List.length_drop]
      omega

/-- Evaluation of C3 on the example: after accepting tokens 0 then 1,
rolling back one token and re-accepting token 1 returns to exactly the
same state. -/
theorem rollback_replay_eval :
    acceptSeq egMatcher [0, 1] = some egAfterAB ∧
    ∃ m', rollback egAfterAB 1 = .ok m' ∧
      acceptSeq m' ([0, 1].drop ([0, 1].length - 1)) = some egAfterAB :=
  ⟨rfl, rollback_replay egMatcher egAfterAB [0, 1] 1 (by decide) rfl rfl
    (by decide) (by decide)⟩

end XGrammar
